import Mathlib

/-!
# Verification of the BusTub storage core against its specification

This file gives a shallow embedding, in Lean 4, of the parts of the BusTub
storage core (B+ tree leaf pages, tree-level optimistic insert, index
iterator, ARC replacer, DML executors, intermediate-result pages) that the
specification's checkable sentences are about, and proves or refutes those
sentences.

Keys and record ids are modelled as `Int` (the comparator of the source,
`GenericComparator`, is a total order; integer keys realise it).  Machine
`int` indices are modelled as `Int`; `size_t`/`uint32_t` counters as `Nat`.
-/

/-! ## B+ tree leaf page (src/storage/page/b_plus_tree_leaf_page.cpp)

A leaf page holds `size` sorted keys with parallel record ids, a FIFO buffer
of at most `LEAF_PAGE_TOMB_CNT` tombstone indices (`num_tombstones` many,
oldest at the front), a `max_size` bound and a `next_page_id` link.  The
`keys`/`vals` lists model `key_array_[0..size)` and `rid_array_[0..size)`
(`GetSize()` is `keys.length`); `tombs` models
`tombstones_[0..num_tombstones)`. -/

structure LeafPage where
  keys : List Int
  vals : List Int
  tombs : List Int
  maxSize : Nat
  tombCnt : Nat
  nextPageId : Int
  deriving Repr, DecidableEq

namespace LeafPage

/-- `GetSize()`. -/
def size (p : LeafPage) : Nat := p.keys.length

/-- `IsTombstone(index)`: linear scan of `tombstones_[0..num_tombstones)`
for an entry equal to `index`. -/
def IsTombstone (p : LeafPage) (index : Int) : Bool := p.tombs.contains index

/-- `RemoveTombstone(key_idx)`: erase the first occurrence of `key_idx` from
the tombstone buffer (shift the following entries left); no-op when absent. -/
def RemoveTombstone (p : LeafPage) (keyIdx : Int) : LeafPage :=
  { p with tombs := p.tombs.erase keyIdx }

/-- `ShiftTombstones(start_idx, delta)`: add `delta` to every tombstone
index that is `≥ start_idx`. -/
def ShiftTombstones (p : LeafPage) (startIdx delta : Int) : LeafPage :=
  { p with tombs := p.tombs.map (fun t => if t ≥ startIdx then t + delta else t) }

/-- `HandleTombstoneOverflow()`: the victim is `tombstones_[0]` (the oldest
tombstone).  Its key/rid are physically removed (the arrays are shifted down
from the victim index and the size decremented), the remaining tombstones
shift forward one slot and every remaining index greater than the victim is
decremented.  Returns the updated page and the victim index. -/
def HandleTombstoneOverflow (p : LeafPage) : LeafPage × Int :=
  let victim := p.tombs.headD 0
  ({ p with
      keys := p.keys.eraseIdx victim.toNat
      vals := p.vals.eraseIdx victim.toNat
      tombs := p.tombs.tail.map (fun t => if t > victim then t - 1 else t) },
   victim)

/-- `AddTombstone(key_idx&)`: no-op when `LEAF_PAGE_TOMB_CNT = 0`; when the
buffer is full, evict via `HandleTombstoneOverflow` and decrement `key_idx`
if it lay past the victim; then append `key_idx` to the buffer.  The second
component models the by-reference update of `key_idx`. -/
def AddTombstone (p : LeafPage) (keyIdx : Int) : LeafPage × Int :=
  if p.tombCnt = 0 then (p, keyIdx)
  else if p.tombs.length = p.tombCnt then
    let r := HandleTombstoneOverflow p
    let k := if keyIdx > r.2 then keyIdx - 1 else keyIdx
    ({ r.1 with tombs := r.1.tombs ++ [k] }, k)
  else ({ p with tombs := p.tombs ++ [keyIdx] }, keyIdx)

end LeafPage

/-- The binary-search loop shared by `Lookup` and the first phase of
`Insert`: on `[l, r]`, probe `mid = l + (r - l) / 2`; an equal key returns
`some mid`, otherwise the window halves.  The second component is the final
value of `l`, the insertion point used by `Insert` when the key is absent. -/
def bsearchLoop (keys : List Int) (key : Int) (l r : Int) : Option Int × Int :=
  if h : l ≤ r then
    let mid := l + (r - l) / 2
    let km := keys.getD mid.toNat 0
    if km = key then (some mid, l)
    else if km < key then bsearchLoop keys key (mid + 1) r
    else bsearchLoop keys key l (mid - 1)
  else (none, l)
termination_by (r + 1 - l).toNat
decreasing_by
  · have h0 : (0:Int) ≤ (r - l) / 2 := Int.ediv_nonneg (by omega) (by norm_num)
    have h1 : (r - l) / 2 ≤ r - l := Int.ediv_le_self _ (by omega)
    omega
  · have h0 : (0:Int) ≤ (r - l) / 2 := Int.ediv_nonneg (by omega) (by norm_num)
    have h1 : (r - l) / 2 ≤ r - l := Int.ediv_le_self _ (by omega)
    omega

namespace LeafPage

/-- `Lookup(key)`: binary search over `[0, size-1]`; the index of the key if
found, `-1` otherwise. -/
def Lookup (p : LeafPage) (key : Int) : Int :=
  match (bsearchLoop p.keys key 0 ((p.keys.length : Int) - 1)).1 with
  | some m => m
  | none => -1

/-- `Insert(key, value)`: binary search; on a duplicate that is tombstoned,
resurrect (remove the tombstone, overwrite the value, return `true`); on a
plain duplicate return `false`.  Otherwise, if the page is full return
`false`; else shift keys/values right from the insertion point `l`, place
the pair, grow the size, and increment every tombstone index `≥ l`. -/
def Insert (p : LeafPage) (key value : Int) : LeafPage × Bool :=
  match bsearchLoop p.keys key 0 ((p.keys.length : Int) - 1) with
  | (some mid, _) =>
    if p.IsTombstone mid then
      ({ p.RemoveTombstone mid with vals := p.vals.set mid.toNat value }, true)
    else (p, false)
  | (none, l) =>
    if p.keys.length ≥ p.maxSize then (p, false)
    else
      (((({ p with
            keys := p.keys.insertIdx l.toNat key
            vals := p.vals.insertIdx l.toNat value } : LeafPage)).ShiftTombstones l 1),
       true)

/-- `Remove(key)`: `Lookup`; absence gives `false`; an already-tombstoned
slot gives `true` with no change; with tombstones disabled the entry is
physically deleted (shift down, size decremented, tombstone indices
`≥ target` decremented); otherwise the slot is tombstoned via
`AddTombstone`. -/
def Remove (p : LeafPage) (key : Int) : LeafPage × Bool :=
  let target := p.Lookup key
  if target = -1 then (p, false)
  else if p.IsTombstone target then (p, true)
  else if p.tombCnt = 0 then
    (((({ p with
          keys := p.keys.eraseIdx target.toNat
          vals := p.vals.eraseIdx target.toNat } : LeafPage)).ShiftTombstones target (-1)),
     true)
  else ((p.AddTombstone target).1, true)

end LeafPage

/-! ## Tree-level optimistic insert (src/storage/index/b_plus_tree.cpp)

`BPlusTree::Insert` first descends with read latches; at the leaf it
releases the read latch, re-acquires a write latch on the leaf alone, and —
if the leaf is deemed safe — performs the page-level `Insert` in place and
returns its result.  Otherwise the optimistic attempt is abandoned and the
whole insert restarts on the pessimistic path.  The two revisions of
`b_plus_tree.cpp` in the repository guard this decision differently. -/

/-- `BPlusTree::IsSafeInsert` (refactored `b_plus_tree.cpp`):
`GetSize() < GetMaxSize()`. -/
def IsSafeInsert (p : LeafPage) : Bool := p.size < p.maxSize

/-- Outcome of the optimistic phase of `BPlusTree::Insert`: either the
page-level insert runs in place on the write-latched leaf and the call
returns its result, or the attempt falls through to the pessimistic
path. -/
inductive OptimisticInsertOutcome where
  | performedInPlace (result : LeafPage × Bool)
  | retryPessimistic
  deriving Repr, DecidableEq

/-- The leaf-local decision of the optimistic phase of `BPlusTree::Insert`
in the refactored `b_plus_tree.cpp`: insert in place iff `IsSafeInsert`
holds, i.e. `size < max_size`. -/
def insertOptimisticPhase (leaf : LeafPage) (key value : Int) : OptimisticInsertOutcome :=
  if IsSafeInsert leaf then .performedInPlace (leaf.Insert key value)
  else .retryPessimistic

/-- The same decision in the pre-refactoring `b_plus_tree.cpp`, whose guard
is `leaf->GetSize() < leaf->GetMaxSize() - 1` (written `size + 1 < max` to
keep `Nat` arithmetic exact for `max = 0`). -/
def insertOptimisticPhasePre (leaf : LeafPage) (key value : Int) : OptimisticInsertOutcome :=
  if leaf.size + 1 < leaf.maxSize then .performedInPlace (leaf.Insert key value)
  else .retryPessimistic

/-! ## ARC replacer (src/buffer/arc_replacer.cpp)

State: the four ordered lists (`mru_`, `mfu_` hold frame ids; `mru_ghost_`,
`mfu_ghost_` hold page ids, most recent at the front), the adaptive MRU
target size, the capacity `replacer_size_`, the count of evictable alive
entries, and the two maps `alive_map_ : frame_id → FrameStatus` and
`ghost_map_ : page_id → FrameStatus`, modelled as association lists. -/

inductive ArcStatus where
  | MRU
  | MFU
  | MRU_GHOST
  | MFU_GHOST
  deriving Repr, DecidableEq

structure FrameStatus where
  pageId : Nat
  frameId : Nat
  evictable : Bool
  arcStatus : ArcStatus
  deriving Repr, DecidableEq

structure ArcReplacer where
  mru : List Nat
  mfu : List Nat
  mruGhost : List Nat
  mfuGhost : List Nat
  mruTargetSize : Nat
  replacerSize : Nat
  currSize : Nat
  aliveMap : List (Nat × FrameStatus)
  ghostMap : List (Nat × FrameStatus)
  deriving Repr, DecidableEq

namespace ArcReplacer

/-- Lookup in an association-list map (`std::unordered_map::find`). -/
def lookupA (m : List (Nat × FrameStatus)) (k : Nat) : Option FrameStatus :=
  (m.find? (fun e => e.1 == k)).map (·.2)

/-- Erase a key from an association-list map (`std::unordered_map::erase`). -/
def eraseA (m : List (Nat × FrameStatus)) (k : Nat) : List (Nat × FrameStatus) :=
  m.filter (fun e => ¬ e.1 == k)

/-- Assign a key in an association-list map (`map[k] = v`). -/
def updateA (m : List (Nat × FrameStatus)) (k : Nat) (v : FrameStatus) :
    List (Nat × FrameStatus) :=
  (k, v) :: eraseA m k

/-- `ArcReplacer::HandleCacheHit`: remove the frame from its current alive
list and prepend it to `mfu_`, updating its status to `MFU`. -/
def HandleCacheHit (a : ArcReplacer) (frameId : Nat) : ArcReplacer :=
  match lookupA a.aliveMap frameId with
  | none => a
  | some fs =>
    let a1 :=
      if fs.arcStatus = .MRU then { a with mru := a.mru.erase frameId }
      else if fs.arcStatus = .MFU then { a with mfu := a.mfu.erase frameId }
      else a
    { a1 with
        mfu := frameId :: a1.mfu,
        aliveMap := updateA a1.aliveMap frameId { fs with arcStatus := .MFU } }

/-- `ArcReplacer::HandleMruGhostHit`: adapt the target
(`p += 1` when `|mru_ghost| ≥ |mfu_ghost|`, else
`p += |mfu_ghost| / |mru_ghost|`, clamped to the capacity), remove the page
from the MRU ghost list and map, and create a new alive evictable entry at
the front of `mfu_`. -/
def HandleMruGhostHit (a : ArcReplacer) (frameId pageId : Nat) : ArcReplacer :=
  let mruGhostSize := a.mruGhost.length
  let mfuGhostSize := a.mfuGhost.length
  let newTarget :=
    if mruGhostSize ≥ mfuGhostSize then min (a.mruTargetSize + 1) a.replacerSize
    else min (a.mruTargetSize + mfuGhostSize / mruGhostSize) a.replacerSize
  { a with
      mruTargetSize := newTarget,
      mruGhost := a.mruGhost.erase pageId,
      ghostMap := eraseA a.ghostMap pageId,
      mfu := frameId :: a.mfu,
      aliveMap := updateA a.aliveMap frameId ⟨pageId, frameId, true, .MFU⟩,
      currSize := a.currSize + 1 }

/-- `ArcReplacer::HandleMfuGhostHit`: adapt the target downwards
(`p -= 1` when `|mfu_ghost| ≥ |mru_ghost|`, else
`p -= |mru_ghost| / |mfu_ghost|`, clamped at 0), remove the page from the
MFU ghost list and map, and create a new alive evictable entry at the front
of `mfu_`. -/
def HandleMfuGhostHit (a : ArcReplacer) (frameId pageId : Nat) : ArcReplacer :=
  let mruGhostSize := a.mruGhost.length
  let mfuGhostSize := a.mfuGhost.length
  let newTarget :=
    if mfuGhostSize ≥ mruGhostSize then a.mruTargetSize - 1
    else a.mruTargetSize - mruGhostSize / mfuGhostSize
  { a with
      mruTargetSize := newTarget,
      mfuGhost := a.mfuGhost.erase pageId,
      ghostMap := eraseA a.ghostMap pageId,
      mfu := frameId :: a.mfu,
      aliveMap := updateA a.aliveMap frameId ⟨pageId, frameId, true, .MFU⟩,
      currSize := a.currSize + 1 }

/-- `ArcReplacer::HandleCacheMiss`: when `|mru| + |mru_ghost|` reaches the
capacity drop the tail of the MRU ghost list, else when all four lists
reach `2 × capacity` drop the tail of the MFU ghost list; then create a new
alive evictable entry at the front of `mru_`. -/
def HandleCacheMiss (a : ArcReplacer) (frameId pageId : Nat) : ArcReplacer :=
  let a1 :=
    if a.mru.length + a.mruGhost.length = a.replacerSize then
      match a.mruGhost.getLast? with
      | some v => { a with mruGhost := a.mruGhost.dropLast, ghostMap := eraseA a.ghostMap v }
      | none => a
    else if a.mru.length + a.mruGhost.length + a.mfu.length + a.mfuGhost.length
        = 2 * a.replacerSize then
      match a.mfuGhost.getLast? with
      | some v => { a with mfuGhost := a.mfuGhost.dropLast, ghostMap := eraseA a.ghostMap v }
      | none => a
    else a
  { a1 with
      mru := frameId :: a1.mru,
      aliveMap := updateA a1.aliveMap frameId ⟨pageId, frameId, true, .MRU⟩,
      currSize := a1.currSize + 1 }

/-- `ArcReplacer::RecordAccess`: classify the access — alive hit, MRU-ghost
hit, MFU-ghost hit, or miss — and dispatch to the matching handler. -/
def RecordAccess (a : ArcReplacer) (frameId pageId : Nat) : ArcReplacer :=
  match lookupA a.aliveMap frameId with
  | some _ => HandleCacheHit a frameId
  | none =>
    match lookupA a.ghostMap pageId with
    | some gs =>
      if gs.arcStatus = .MRU_GHOST then HandleMruGhostHit a frameId pageId
      else if gs.arcStatus = .MFU_GHOST then HandleMfuGhostHit a frameId pageId
      else HandleCacheMiss a frameId pageId
    | none => HandleCacheMiss a frameId pageId

end ArcReplacer

/-! ## Join executors: construction guard
(src/execution/hash_join_executor.cpp, src/execution/nested_loop_join_executor.cpp)

Both constructors consist of member initialisation followed by the guard
`if (GetJoinType() != LEFT && GetJoinType() != INNER) throw
NotImplementedException(...)`.  Construction is modelled as `Except`: an
error carries no executor (no child is touched, no tuple processed).  The
`JoinType` enumeration is declared in the binder
(`binder/table_ref/bound_join_ref.h`, outside the packaged sources) with
the members below, as in stock BusTub. -/

inductive JoinType where
  | INVALID
  | LEFT
  | RIGHT
  | INNER
  | OUTER
  deriving Repr, DecidableEq

inductive ExecError where
  | notImplemented
  deriving Repr, DecidableEq

structure HashJoinExec (α : Type) where
  joinType : JoinType
  leftChild : α
  rightChild : α
  deriving Repr, DecidableEq

structure NestedLoopJoinExec (α : Type) where
  joinType : JoinType
  leftChild : α
  rightChild : α
  deriving Repr, DecidableEq

/-- `HashJoinExecutor::HashJoinExecutor`: members are initialised, then join
types other than `LEFT`/`INNER` raise `NotImplementedException`. -/
def HashJoinExecutorCtor (α : Type) (jt : JoinType) (l r : α) :
    Except ExecError (HashJoinExec α) :=
  if jt ≠ JoinType.LEFT ∧ jt ≠ JoinType.INNER then .error .notImplemented
  else .ok ⟨jt, l, r⟩

/-- `NestedLoopJoinExecutor::NestedLoopJoinExecutor`: the same guard. -/
def NestedLoopJoinExecutorCtor (α : Type) (jt : JoinType) (l r : α) :
    Except ExecError (NestedLoopJoinExec α) :=
  if jt ≠ JoinType.LEFT ∧ jt ≠ JoinType.INNER then .error .notImplemented
  else .ok ⟨jt, l, r⟩

/-! ## DML executors (insert_executor.cpp, delete_executor.cpp, update_executor.cpp)

Each of `Insert`, `Update`, `Delete` drains its child inside the first
`Next` call, counts the rows it affected, emits a single batch holding one
integer tuple with that count, sets `is_finished_`, and returns `true`;
every later call returns `false` immediately.

The child executor is modelled as the list of batches it will produce; the
table heap as an abstract state `H` with the entry points the executors
call: `InsertTuple` (`H → Tup → Option H`, `none` modelling a failed
allocation, in which case the row is skipped and not counted),
`UpdateTupleMeta` (`H → Tup → H`, total).  Secondary-index maintenance
touches no state observed by the claim and is absorbed into those
functions.  The emitted integer tuple is modelled by its integer value. -/

/-- The insert loop body: for each child tuple try `InsertTuple`; a `none`
result skips the row, a success threads the heap and bumps the count. -/
def processInserts {H Tup : Type} (ins : H → Tup → Option H) :
    H → List Tup → H × Nat
  | h, [] => (h, 0)
  | h, t :: ts =>
    match ins h t with
    | none => processInserts ins h ts
    | some h1 =>
      let r := processInserts ins h1 ts
      (r.1, r.2 + 1)

/-- The insert loop over the child's successive batches. -/
def processInsertBatches {H Tup : Type} (ins : H → Tup → Option H) :
    H → List (List Tup) → H × Nat
  | h, [] => (h, 0)
  | h, b :: bs =>
    let r := processInserts ins h b
    let r2 := processInsertBatches ins r.1 bs
    (r2.1, r.2 + r2.2)

/-- The delete loop: every child row has its meta marked deleted and is
counted. -/
def processDeletes {H Tup : Type} (upd : H → Tup → H) :
    H → List Tup → H × Nat
  | h, [] => (h, 0)
  | h, t :: ts =>
    let r := processDeletes upd (upd h t) ts
    (r.1, r.2 + 1)

/-- The delete loop over batches. -/
def processDeleteBatches {H Tup : Type} (upd : H → Tup → H) :
    H → List (List Tup) → H × Nat
  | h, [] => (h, 0)
  | h, b :: bs =>
    let r := processDeletes upd h b
    let r2 := processDeleteBatches upd r.1 bs
    (r2.1, r.2 + r2.2)

/-- The update loop: mark the old row deleted, insert the transformed row;
only a successful re-insert is counted. -/
def processUpdates {H Tup : Type} (markDel : H → Tup → H) (xform : Tup → Tup)
    (ins : H → Tup → Option H) : H → List Tup → H × Nat
  | h, [] => (h, 0)
  | h, t :: ts =>
    let h1 := markDel h t
    match ins h1 (xform t) with
    | none => processUpdates markDel xform ins h1 ts
    | some h2 =>
      let r := processUpdates markDel xform ins h2 ts
      (r.1, r.2 + 1)

/-- The update loop over batches. -/
def processUpdateBatches {H Tup : Type} (markDel : H → Tup → H) (xform : Tup → Tup)
    (ins : H → Tup → Option H) : H → List (List Tup) → H × Nat
  | h, [] => (h, 0)
  | h, b :: bs =>
    let r := processUpdates markDel xform ins h b
    let r2 := processUpdateBatches markDel xform ins r.1 bs
    (r2.1, r.2 + r2.2)

/-- `InsertExecutor` state after `Init`: the heap-insert entry point, the
heap, the child's remaining batches and the `is_finished_` flag. -/
structure InsertExecutorState (H Tup : Type) where
  heapInsert : H → Tup → Option H
  heap : H
  pending : List (List Tup)
  finished : Bool

/-- `InsertExecutor::Next`: `false` once finished; otherwise drain the
child, insert every row, emit one integer tuple with the count, finish. -/
def InsertExecutorState.Next {H Tup : Type} (e : InsertExecutorState H Tup) :
    InsertExecutorState H Tup × List Int × Bool :=
  if e.finished then (e, [], false)
  else
    let r := processInsertBatches e.heapInsert e.heap e.pending
    ({ e with heap := r.1, pending := [], finished := true }, [(r.2 : Int)], true)

/-- The state and output of the `n`-th `Next` call after the first. -/
def InsertExecutorState.nthNext {H Tup : Type} (e : InsertExecutorState H Tup) :
    Nat → InsertExecutorState H Tup × List Int × Bool
  | 0 => e.Next
  | n + 1 => InsertExecutorState.nthNext (e.Next).1 n

structure DeleteExecutorState (H Tup : Type) where
  updateTupleMeta : H → Tup → H
  heap : H
  pending : List (List Tup)
  finished : Bool

/-- `DeleteExecutor::Next`: `false` once finished; otherwise mark every
child row deleted, emit one integer tuple with the count, finish. -/
def DeleteExecutorState.Next {H Tup : Type} (e : DeleteExecutorState H Tup) :
    DeleteExecutorState H Tup × List Int × Bool :=
  if e.finished then (e, [], false)
  else
    let r := processDeleteBatches e.updateTupleMeta e.heap e.pending
    ({ e with heap := r.1, pending := [], finished := true }, [(r.2 : Int)], true)

def DeleteExecutorState.nthNext {H Tup : Type} (e : DeleteExecutorState H Tup) :
    Nat → DeleteExecutorState H Tup × List Int × Bool
  | 0 => e.Next
  | n + 1 => DeleteExecutorState.nthNext (e.Next).1 n

structure UpdateExecutorState (H Tup : Type) where
  updateTupleMeta : H → Tup → H
  targetExpr : Tup → Tup
  heapInsert : H → Tup → Option H
  heap : H
  pending : List (List Tup)
  finished : Bool

/-- `UpdateExecutor::Next`: `false` once finished; otherwise delete-then-
insert every child row, emit one integer tuple with the count of successful
re-inserts, finish. -/
def UpdateExecutorState.Next {H Tup : Type} (e : UpdateExecutorState H Tup) :
    UpdateExecutorState H Tup × List Int × Bool :=
  if e.finished then (e, [], false)
  else
    let r := processUpdateBatches e.updateTupleMeta e.targetExpr e.heapInsert e.heap e.pending
    ({ e with heap := r.1, pending := [], finished := true }, [(r.2 : Int)], true)

def UpdateExecutorState.nthNext {H Tup : Type} (e : UpdateExecutorState H Tup) :
    Nat → UpdateExecutorState H Tup × List Int × Bool
  | 0 => e.Next
  | n + 1 => UpdateExecutorState.nthNext (e.Next).1 n

/-! ## Intermediate result page (src/include/storage/page/intermediate_result_page.h)

A byte-level model of the 4096-byte page.  The first eight bytes hold the
two `uint32_t` members `num_tuples_` and `free_space_offset_` (modelled as
fields); `mem` models the remaining bytes, addressed absolutely from the
start of the page as `GetDataPtr()` does.  Slots (each a 4-byte offset)
grow upward from byte 8; tuple payloads — a 4-byte length followed by the
data, as `Tuple::SerializeTo` writes them — grow downward from the end of
the page.  Multi-byte integers are stored little-endian. -/

def BUSTUB_PAGE_SIZE : Nat := 4096

/-- Little-endian bytes of a `uint32_t`. -/
def encode32 (n : Nat) : List Nat :=
  [n % 256, n / 256 % 256, n / 65536 % 256, n / 16777216 % 256]

/-- Read a little-endian `uint32_t` at `addr`. -/
def decode32 (mem : Nat → Nat) (addr : Nat) : Nat :=
  mem addr + 256 * mem (addr + 1) + 65536 * mem (addr + 2) + 16777216 * mem (addr + 3)

/-- `memcpy(dst + addr, bs)`. -/
def writeBytes (mem : Nat → Nat) (addr : Nat) (bs : List Nat) : Nat → Nat :=
  fun a => if addr ≤ a ∧ a < addr + bs.length then bs.getD (a - addr) 0 else mem a

/-- Read `len` bytes starting at `addr`. -/
def readBytes (mem : Nat → Nat) (addr len : Nat) : List Nat :=
  (List.range len).map (fun i => mem (addr + i))

/-- A tuple is its payload bytes; `Tuple::GetLength` is the list length. -/
abbrev TupleBytes := List Nat

/-- `Tuple::SerializeTo`: a 4-byte size followed by the payload. -/
def serializeTuple (t : TupleBytes) : List Nat := encode32 t.length ++ t

structure IRPage where
  numTuples : Nat
  freeSpaceOffset : Nat
  mem : Nat → Nat

namespace IRPage

/-- `IntermediateResultPage::Init`. -/
def Init (p : IRPage) : IRPage :=
  { p with numTuples := 0, freeSpaceOffset := BUSTUB_PAGE_SIZE }

/-- `IntermediateResultPage::InsertTuple`: fail when the free-space offset
would cross the slot array grown by one entry plus the serialized tuple;
otherwise write the tuple below the old free-space offset, record the new
offset in slot `num_tuples_`, and bump the count. -/
def InsertTuple (p : IRPage) (t : TupleBytes) : IRPage × Bool :=
  let totalTupleSize := 4 + t.length
  if p.freeSpaceOffset < 8 + (p.numTuples + 1) * 4 + totalTupleSize then (p, false)
  else
    let off := p.freeSpaceOffset - totalTupleSize
    let mem1 := writeBytes p.mem off (serializeTuple t)
    let mem2 := writeBytes mem1 (8 + p.numTuples * 4) (encode32 off)
    ({ numTuples := p.numTuples + 1, freeSpaceOffset := off, mem := mem2 }, true)

/-- `IntermediateResultPage::GetTuple`: read slot `i`, then deserialize the
length-prefixed payload found at the recorded offset. -/
def GetTuple (p : IRPage) (i : Nat) : TupleBytes :=
  let off := decode32 p.mem (8 + i * 4)
  readBytes p.mem (off + 4) (decode32 p.mem off)

end IRPage

/-- A sequence of `InsertTuple` calls; the flag is the conjunction of the
individual results. -/
def insertAllIR : IRPage → List TupleBytes → IRPage × Bool
  | p, [] => (p, true)
  | p, t :: ts =>
    let r := p.InsertTuple t
    let r2 := insertAllIR r.1 ts
    (r2.1, r.2 && r2.2)

/-- Serialized size of a tuple (`sizeof(int32_t) + GetLength()`). -/
def tupleTotal (t : TupleBytes) : Nat := 4 + t.length

/-- Total serialized size of the first `k` inserted tuples. -/
def prefixSize (ts : List TupleBytes) (k : Nat) : Nat :=
  ((ts.take k).map tupleTotal).sum

/-- The offset at which the `i`-th inserted tuple was serialized. -/
def tupleOffset (ts : List TupleBytes) (i : Nat) : Nat :=
  BUSTUB_PAGE_SIZE - prefixSize ts (i + 1)

/-- The state invariant of an intermediate-result page holding exactly the
tuples `ts`, in order: counters agree, the slot array and the payload area
fit, each slot records the offset of its tuple, and each payload region
holds the serialized tuple. -/
def IRInv (ts : List TupleBytes) (p : IRPage) : Prop :=
  p.numTuples = ts.length ∧
  p.freeSpaceOffset = BUSTUB_PAGE_SIZE - prefixSize ts ts.length ∧
  8 + 4 * ts.length + prefixSize ts ts.length ≤ BUSTUB_PAGE_SIZE ∧
  ∀ i, i < ts.length →
    readBytes p.mem (8 + i * 4) 4 = encode32 (tupleOffset ts i) ∧
    readBytes p.mem (tupleOffset ts i) (tupleTotal (ts.getD i []))
      = serializeTuple (ts.getD i [])

/-! ## Index iterator (src/storage/index/index_iterator.cpp)

The iterator is a cursor `(page_id_, index_)` holding a read guard on the
current leaf.  Both the constructor and `operator++` run the same loop:
while the cursor is valid, if `index_ ≥ size` follow `next_page_id_`
(resetting `index_` to 0) or, when that link is invalid, become the end
sentinel `(INVALID_PAGE_ID, 0)`; a tombstoned slot is skipped by
incrementing `index_`; a live slot stops the loop.

The pages reachable from the cursor by following `next_page_id_` links are
passed as an explicit list `(page_id, page)` — the shallow embedding of
reading linked pages from the buffer pool; `chainLinked` states that the
list is exactly that linked chain.  `index_` is int in the source; it is
non-negative in every state the iterator constructs, and is modelled as
`Nat`. -/

/-- The skip loop shared by the iterator constructor and `operator++`,
acting on the chain suffix that starts at the current page. -/
def skipLoop : List (Int × LeafPage) → Nat → Int × Nat
  | [], _ => (-1, 0)
  | (pid, leaf) :: rest, idx =>
    if idx ≥ leaf.size then
      if leaf.nextPageId ≠ -1 then skipLoop rest 0
      else (-1, 0)
    else if leaf.IsTombstone (idx : Int) then skipLoop ((pid, leaf) :: rest) (idx + 1)
    else (pid, idx)
termination_by c idx =>
  (c.length, (match c with | [] => 0 | (_, l) :: _ => l.size + 1 - idx))
decreasing_by
  · apply Prod.Lex.left
    simp
  · apply Prod.Lex.right
    simp only [LeafPage.size] at *
    omega

/-- The key sequence the iterator yields from the cursor `(chain, idx)` to
`end()`: normalise with the skip loop; at a live slot yield `KeyAt(index)`
(the first component of `operator*`) and advance (`index_++` then the skip
loop again). -/
def iterKeys : List (Int × LeafPage) → Nat → List Int
  | [], _ => []
  | (pid, leaf) :: rest, idx =>
    if idx ≥ leaf.size then
      if leaf.nextPageId ≠ -1 then iterKeys rest 0
      else []
    else if leaf.IsTombstone (idx : Int) then iterKeys ((pid, leaf) :: rest) (idx + 1)
    else leaf.keys.getD idx 0 :: iterKeys ((pid, leaf) :: rest) (idx + 1)
termination_by c idx =>
  (c.length, (match c with | [] => 0 | (_, l) :: _ => l.size + 1 - idx))
decreasing_by
  · apply Prod.Lex.left
    simp
  · apply Prod.Lex.right
    simp only [LeafPage.size] at *
    omega
  · apply Prod.Lex.right
    simp only [LeafPage.size] at *
    omega

/-- `operator==` on cursors (`page_id_ == other.page_id_ && index_ ==
other.index_`). -/
def iterEq (a b : Int × Nat) : Bool := a.1 == b.1 && a.2 == b.2

/-- `End()`: the sentinel `(INVALID_PAGE_ID, 0)`. -/
def endIter : Int × Nat := (-1, 0)

/-- The chain list is exactly the `next_page_id_`-linked pages: every page
id is valid, and each page's `next_page_id_` is the id of the next entry
(`INVALID_PAGE_ID` at the last). -/
def chainLinked : List (Int × LeafPage) → Prop
  | [] => True
  | [(pid, l)] => pid ≠ -1 ∧ l.nextPageId = -1
  | (pid, l) :: (pid', l') :: rest =>
      pid ≠ -1 ∧ l.nextPageId = pid' ∧ chainLinked ((pid', l') :: rest)

/-- The non-tombstoned keys of a leaf from slot `i` on, in slot order. -/
def leafLiveKeysFrom (l : LeafPage) (i : Nat) : List Int :=
  (List.range' i (l.size - i)).filterMap
    (fun (j : Nat) => if l.IsTombstone (j : Int) then none else some (l.keys.getD j 0))

/-- The non-tombstoned keys of a leaf. -/
def leafLiveKeys (l : LeafPage) : List Int := leafLiveKeysFrom l 0

/-- All non-tombstoned keys of a chain, in chain-then-slot order. -/
def chainLiveKeys (c : List (Int × LeafPage)) : List Int :=
  (c.map (fun e => leafLiveKeys e.2)).flatten

/-- All keys of a chain (tombstoned or not), in chain-then-slot order. -/
def allChainKeys (c : List (Int × LeafPage)) : List Int :=
  (c.map (fun e => e.2.keys)).flatten

section Scratch

example :
    (LeafPage.Insert ⟨[10, 20, 30], [1, 2, 3], [], 4, 2, -1⟩ 25 9).1.keys
      = [10, 20, 25, 30] := by
  simp [LeafPage.Insert, bsearchLoop, LeafPage.ShiftTombstones]

example :
    (LeafPage.Remove ⟨[10, 20, 30], [1, 2, 3], [], 4, 2, -1⟩ 20).1.tombs = [1] := by
  simp [LeafPage.Remove, LeafPage.Lookup, bsearchLoop, LeafPage.IsTombstone,
    LeafPage.AddTombstone]

example :
    (LeafPage.Remove ⟨[10, 20, 30, 40], [1, 2, 3, 4], [0, 1], 5, 2, -1⟩ 30).1
      = ⟨[20, 30, 40], [2, 3, 4], [0, 1], 5, 2, -1⟩ := by
  simp [LeafPage.Remove, LeafPage.Lookup, bsearchLoop, LeafPage.IsTombstone,
    LeafPage.AddTombstone, LeafPage.HandleTombstoneOverflow]

example : (LeafPage.Lookup ⟨[10, 20, 30], [1, 2, 3], [], 4, 2, -1⟩ 30) = 2 := by
  simp [LeafPage.Lookup, bsearchLoop]
example : (LeafPage.Lookup ⟨[10, 20, 30], [1, 2, 3], [], 4, 2, -1⟩ 5) = -1 := by
  simp [LeafPage.Lookup, bsearchLoop]

end Scratch

/-! ## Correctness of the binary-search loop on a sorted key array -/

/-- On a strictly sorted list, earlier entries are smaller. -/
theorem sorted_getD_lt (keys : List Int) (hs : keys.Pairwise (· < ·))
    (i j : Nat) (hij : i < j) (hj : j < keys.length) :
    keys.getD i 0 < keys.getD j 0 := by
  rw [List.getD_eq_getElem keys 0 (by omega), List.getD_eq_getElem keys 0 hj]
  rw [List.pairwise_iff_getElem] at hs
  exact hs i j (by omega) hj hij

/-- On a strictly sorted list, an index holding a given value is unique. -/
theorem sorted_getD_inj (keys : List Int) (hs : keys.Pairwise (· < ·))
    (i j : Nat) (hi : i < keys.length) (hj : j < keys.length)
    (h : keys.getD i 0 = keys.getD j 0) : i = j := by
  rcases Nat.lt_trichotomy i j with hlt | heq | hgt
  · have := sorted_getD_lt keys hs i j hlt hj; omega
  · exact heq
  · have := sorted_getD_lt keys hs j i hgt hi; omega

/-- The probe `mid = l + (r - l) / 2` of the loop lies in `[l, r]`. -/
theorem bsearch_mid_bounds (l r : Int) (h : l ≤ r) :
    l ≤ l + (r - l) / 2 ∧ l + (r - l) / 2 ≤ r := by
  have h0 : (0:Int) ≤ (r - l) / 2 := Int.ediv_nonneg (by omega) (by norm_num)
  have h1 : (r - l) / 2 ≤ r - l := Int.ediv_le_self _ (by omega)
  omega

/-- If the key occurs at index `t` of the sorted array and the window
invariants hold (everything left of `l` is `< key`, everything right of `r`
is `> key`), the loop finds `t`. -/
theorem bsearchLoop_found (keys : List Int) (key : Int)
    (hs : keys.Pairwise (· < ·)) (t : Nat) (ht : t < keys.length)
    (hkey : keys.getD t 0 = key) :
    ∀ l r : Int, 0 ≤ l → r < (keys.length : Int) →
      (∀ j : Nat, j < keys.length → (j : Int) < l → keys.getD j 0 < key) →
      (∀ j : Nat, j < keys.length → r < (j : Int) → key < keys.getD j 0) →
      (bsearchLoop keys key l r).1 = some (t : Int) := by
  intro l r
  induction l, r using bsearchLoop.induct keys key with
  | case1 l r hlr mid km heq =>
    intro hl hr hinvl hinvr
    have hmid := bsearch_mid_bounds l r hlr
    have hmidlen : mid.toNat < keys.length := by omega
    have : mid.toNat = t := by
      refine sorted_getD_inj keys hs _ _ hmidlen ht ?_
      rw [hkey]; exact heq
    rw [bsearchLoop]
    simp only [dif_pos hlr, if_pos heq]
    congr 1
    omega
  | case2 l r hlr mid km hne hlt ih =>
    intro hl hr hinvl hinvr
    have hmid := bsearch_mid_bounds l r hlr
    have hmidlen : mid.toNat < keys.length := by omega
    rw [bsearchLoop]
    simp only [dif_pos hlr, if_neg hne, if_pos hlt]
    refine ih (by omega) hr ?_ hinvr
    intro j hj hjmid
    rcases Nat.lt_trichotomy j mid.toNat with hc | hc | hc
    · calc keys.getD j 0 < keys.getD mid.toNat 0 := sorted_getD_lt keys hs j _ hc hmidlen
        _ < key := hlt
    · rw [hc]; exact hlt
    · omega
  | case3 l r hlr mid km hne hnlt ih =>
    intro hl hr hinvl hinvr
    have hmid := bsearch_mid_bounds l r hlr
    have hmidlen : mid.toNat < keys.length := by omega
    have hgt : key < km := by omega
    rw [bsearchLoop]
    simp only [dif_pos hlr, if_neg hne, if_neg hnlt]
    refine ih hl (by omega) hinvl ?_
    intro j hj hjmid
    rcases Nat.lt_trichotomy mid.toNat j with hc | hc | hc
    · calc key < keys.getD mid.toNat 0 := hgt
        _ < keys.getD j 0 := sorted_getD_lt keys hs _ j hc hj
    · rw [← hc]; exact hgt
    · omega
  | case4 l r hlr =>
    intro hl hr hinvl hinvr
    exfalso
    rcases lt_or_le (t : Int) l with hc | hc
    · have := hinvl t ht hc; omega
    · have := hinvr t ht (by omega); omega

/-- If the key occurs nowhere in the sorted array, the loop returns
`(none, L)` where `L` is the lower bound: exactly the indices `< L` hold
keys smaller than the probe key. -/
theorem bsearchLoop_absent (keys : List Int) (key : Int)
    (hs : keys.Pairwise (· < ·))
    (hab : ∀ j : Nat, j < keys.length → keys.getD j 0 ≠ key) :
    ∀ l r : Int, 0 ≤ l → l ≤ (keys.length : Int) → r < (keys.length : Int) →
      (∀ j : Nat, j < keys.length → (j : Int) < l → keys.getD j 0 < key) →
      (∀ j : Nat, j < keys.length → r < (j : Int) → key < keys.getD j 0) →
      ∃ L : Nat, bsearchLoop keys key l r = (none, (L : Int)) ∧
        L ≤ keys.length ∧
        (∀ j : Nat, j < keys.length → (j < L ↔ keys.getD j 0 < key)) := by
  intro l r
  induction l, r using bsearchLoop.induct keys key with
  | case1 l r hlr mid km heq =>
    intro hl hll hr hinvl hinvr
    exfalso
    have hmid := bsearch_mid_bounds l r hlr
    exact hab mid.toNat (by omega) heq
  | case2 l r hlr mid km hne hlt ih =>
    intro hl hll hr hinvl hinvr
    have hmid := bsearch_mid_bounds l r hlr
    have hmidlen : mid.toNat < keys.length := by omega
    rw [bsearchLoop]
    simp only [dif_pos hlr, if_neg hne, if_pos hlt]
    refine ih (by omega) (by omega) hr ?_ hinvr
    intro j hj hjmid
    rcases Nat.lt_trichotomy j mid.toNat with hc | hc | hc
    · calc keys.getD j 0 < keys.getD mid.toNat 0 := sorted_getD_lt keys hs j _ hc hmidlen
        _ < key := hlt
    · rw [hc]; exact hlt
    · omega
  | case3 l r hlr mid km hne hnlt ih =>
    intro hl hll hr hinvl hinvr
    have hmid := bsearch_mid_bounds l r hlr
    have hmidlen : mid.toNat < keys.length := by omega
    have hgt : key < km := by omega
    rw [bsearchLoop]
    simp only [dif_pos hlr, if_neg hne, if_neg hnlt]
    refine ih hl hll (by omega) hinvl ?_
    intro j hj hjmid
    rcases Nat.lt_trichotomy mid.toNat j with hc | hc | hc
    · calc key < keys.getD mid.toNat 0 := hgt
        _ < keys.getD j 0 := sorted_getD_lt keys hs _ j hc hj
    · rw [← hc]; exact hgt
    · omega
  | case4 l r hlr =>
    intro hl hll hr hinvl hinvr
    refine ⟨l.toNat, ?_, by omega, ?_⟩
    · rw [bsearchLoop]
      simp only [dif_neg hlr]
      congr 1
      omega
    · intro j hj
      constructor
      · intro hjl
        exact hinvl j hj (by omega)
      · intro hlt
        by_contra hge
        have := hinvr j hj (by omega)
        omega

/-- A lower bound characterised index-wise equals the count of keys below
the probe key. -/
theorem lowerBound_eq_countP (keys : List Int) (key : Int) (L : Nat)
    (hL : L ≤ keys.length)
    (hc : ∀ j : Nat, j < keys.length → (j < L ↔ keys.getD j 0 < key)) :
    keys.countP (fun k => decide (k < key)) = L := by
  conv_lhs => rw [← List.take_append_drop L keys]
  rw [List.countP_append]
  have h1 : (keys.take L).countP (fun k => decide (k < key)) = (keys.take L).length := by
    refine List.countP_eq_length.mpr ?_
    intro a ha
    obtain ⟨i, hi, hia⟩ := List.mem_iff_getElem.mp ha
    have hilen : i < keys.length := by simp at hi; omega
    have : (keys.take L)[i] = keys[i] := List.getElem_take ..
    have hiL : i < L := by simp at hi; omega
    have := (hc i hilen).mp hiL
    rw [List.getD_eq_getElem keys 0 hilen] at this
    simp [← hia, this]
  have h2 : (keys.drop L).countP (fun k => decide (k < key)) = 0 := by
    refine List.countP_eq_zero.mpr ?_
    intro a ha
    obtain ⟨i, hi, hia⟩ := List.mem_iff_getElem.mp ha
    have hilen : L + i < keys.length := by simp at hi; omega
    have : (keys.drop L)[i] = keys[L + i] := List.getElem_drop ..
    have hnot : ¬ (L + i < L) := by omega
    have := (hc (L + i) hilen).not.mp hnot
    rw [List.getD_eq_getElem keys 0 hilen] at this
    simp [← hia, this]
  rw [h1, h2]
  simp [Nat.min_eq_left hL]

/-- `Lookup` finds the index of a present key on a sorted page. -/
theorem Lookup_found (p : LeafPage) (key : Int)
    (hs : p.keys.Pairwise (· < ·)) (t : Nat) (ht : t < p.keys.length)
    (hkey : p.keys.getD t 0 = key) :
    p.Lookup key = (t : Int) := by
  unfold LeafPage.Lookup
  rw [bsearchLoop_found p.keys key hs t ht hkey 0 ((p.keys.length : Int) - 1)
    (by omega) (by omega) (by intro j hj hj0; omega) (by intro j hj hjr; omega)]

/-- `Lookup` returns `-1` when the key is absent from a sorted page. -/
theorem Lookup_absent (p : LeafPage) (key : Int)
    (hs : p.keys.Pairwise (· < ·))
    (hab : ∀ j : Nat, j < p.keys.length → p.keys.getD j 0 ≠ key) :
    p.Lookup key = -1 := by
  unfold LeafPage.Lookup
  obtain ⟨L, hbs, _, _⟩ := bsearchLoop_absent p.keys key hs hab 0
    ((p.keys.length : Int) - 1) (by omega) (by omega) (by omega)
    (by intro j hj hj0; omega) (by intro j hj hjr; omega)
  rw [hbs]

/-! ## Claims about the leaf page operations -/

/-- **C5** — For every leaf page and every key whose slot is already
tombstoned, `Remove(key)` returns `true` and leaves the page unchanged
(same keys, values, size and tombstone buffer): removing an
already-removed key is idempotent at the leaf level. -/
theorem c5_remove_tombstoned_idempotent (p : LeafPage) (key : Int)
    (hs : p.keys.Pairwise (· < ·)) (t : Nat) (ht : t < p.keys.length)
    (hkey : p.keys.getD t 0 = key) (htomb : p.IsTombstone (t : Int) = true) :
    p.Remove key = (p, true) := by
  unfold LeafPage.Remove
  rw [Lookup_found p key hs t ht hkey]
  have h1 : ¬ ((t : Int) = -1) := by omega
  simp [h1, htomb]

/-- Witness for C5 at a concrete page: keys `[10, 20, 30]`, slot 1 (key 20)
tombstoned; `Remove 20` returns `true` and changes nothing. -/
theorem c5_witness :
    (([10, 20, 30] : List Int).Pairwise (· < ·)) ∧
      LeafPage.Remove ⟨[10, 20, 30], [1, 2, 3], [1], 3, 2, -1⟩ 20
        = (⟨[10, 20, 30], [1, 2, 3], [1], 3, 2, -1⟩, true) :=
  ⟨by decide,
   c5_remove_tombstoned_idempotent ⟨[10, 20, 30], [1, 2, 3], [1], 3, 2, -1⟩ 20
     (by decide) 1 (by decide) (by decide) (by decide)⟩

/-- **C9** — For every leaf page whose size equals `max_size` and every key
not already present in that page, the page-level `Insert` returns `false`
and leaves the page completely unchanged: it refuses to grow a full leaf
and relies on the caller to split first. -/
theorem c9_insert_full_page_rejected (p : LeafPage) (key value : Int)
    (hs : p.keys.Pairwise (· < ·)) (hfull : p.keys.length = p.maxSize)
    (hab : ∀ j : Nat, j < p.keys.length → p.keys.getD j 0 ≠ key) :
    p.Insert key value = (p, false) := by
  obtain ⟨L, hbs, hLlen, hchar⟩ := bsearchLoop_absent p.keys key hs hab 0
    ((p.keys.length : Int) - 1) (by omega) (by omega) (by omega)
    (by intro j hj hj0; omega) (by intro j hj hjr; omega)
  unfold LeafPage.Insert
  rw [hbs]
  simp [hfull]

/-- Witness for C9: the full leaf `[10, 20]` with `max_size = 2` rejects the
absent key 15 unchanged. -/
theorem c9_witness :
    (([10, 20] : List Int).Pairwise (· < ·)) ∧
      LeafPage.Insert ⟨[10, 20], [1, 2], [], 2, 2, -1⟩ 15 9
        = (⟨[10, 20], [1, 2], [], 2, 2, -1⟩, false) :=
  ⟨by decide,
   c9_insert_full_page_rejected ⟨[10, 20], [1, 2], [], 2, 2, -1⟩ 15 9
     (by decide) (by decide) (by decide)⟩

/-- **C3 (counterexample)** — The claim's absent-key branch, as stated,
fails on a full page: on the page with keys `[10]`, `max_size = 1`, the
absent key 20 is *not* shifted into place; `Insert` returns `false` and
changes nothing. -/
theorem c3_counterexample :
    (20 : Int) ∉ ([10] : List Int) ∧
      LeafPage.Insert ⟨[10], [1], [], 1, 2, -1⟩ 20 2
        = (⟨[10], [1], [], 1, 2, -1⟩, false) := by
  constructor
  · decide
  · simp [LeafPage.Insert, bsearchLoop]

/-- **C3 (amended)** — For every leaf-page `insert(key, value)` on a sorted
page: if the key is present and tombstoned, the tombstone entry is dropped,
the stored value is overwritten and the call returns `inserted = true`; if
the key is present and not tombstoned, the call returns `inserted = false`;
if the key is absent *and the page is not full*, entries are shifted, the
pair is placed at its sorted position (the number of smaller keys), and
every tombstone index `≥` the insertion point is incremented by one. -/
theorem c3_leaf_insert_cases (p : LeafPage) (key value : Int)
    (hs : p.keys.Pairwise (· < ·)) :
    (∀ t : Nat, t < p.keys.length → p.keys.getD t 0 = key →
      (p.IsTombstone (t : Int) = true →
        p.Insert key value
          = ({ p with
                vals := p.vals.set t value,
                tombs := p.tombs.erase (t : Int) }, true)) ∧
      (p.IsTombstone (t : Int) = false → p.Insert key value = (p, false))) ∧
    ((∀ j : Nat, j < p.keys.length → p.keys.getD j 0 ≠ key) →
      p.keys.length < p.maxSize →
      p.Insert key value
        = ({ p with
              keys := p.keys.insertIdx (p.keys.countP (fun k => decide (k < key))) key,
              vals := p.vals.insertIdx (p.keys.countP (fun k => decide (k < key))) value,
              tombs := p.tombs.map (fun x =>
                if x ≥ (p.keys.countP (fun k => decide (k < key)) : Int) then x + 1 else x) },
           true)) := by
  constructor
  · intro t ht hkey
    have hfound := bsearchLoop_found p.keys key hs t ht hkey 0
      ((p.keys.length : Int) - 1) (by omega) (by omega)
      (by intro j hj hj0; omega) (by intro j hj hjr; omega)
    rcases hbs : bsearchLoop p.keys key 0 ((p.keys.length : Int) - 1) with ⟨o, L⟩
    rw [hbs] at hfound
    simp only at hfound
    subst hfound
    constructor
    · intro htomb
      unfold LeafPage.Insert
      rw [hbs]
      simp [htomb, LeafPage.RemoveTombstone]
    · intro htomb
      unfold LeafPage.Insert
      rw [hbs]
      simp [htomb]
  · intro hab hroom
    obtain ⟨L, hbs, hLlen, hchar⟩ := bsearchLoop_absent p.keys key hs hab 0
      ((p.keys.length : Int) - 1) (by omega) (by omega) (by omega)
      (by intro j hj hj0; omega) (by intro j hj hjr; omega)
    have hcount : p.keys.countP (fun k => decide (k < key)) = L :=
      lowerBound_eq_countP p.keys key L hLlen hchar
    unfold LeafPage.Insert
    rw [hbs]
    simp [hroom, Nat.not_le.mpr hroom, LeafPage.ShiftTombstones, hcount]

/-- Witness for the amended C3: on keys `[10, 20, 30]` with slot 1
tombstoned, inserting key 20 resurrects it (value overwritten, tombstone
dropped, `true` returned). -/
theorem c3_witness :
    (([10, 20, 30] : List Int).Pairwise (· < ·)) ∧
      LeafPage.Insert ⟨[10, 20, 30], [1, 2, 3], [1], 4, 2, -1⟩ 20 9
        = (⟨[10, 20, 30], [1, 9, 3], [], 4, 2, -1⟩, true) :=
  ⟨by decide, by
    have h := ((c3_leaf_insert_cases ⟨[10, 20, 30], [1, 2, 3], [1], 4, 2, -1⟩ 20 9
      (by decide)).1 1 (by decide) (by decide)).1 (by decide)
    simpa using h⟩

/-- **C2** — On a sorted leaf page whose tombstone buffer is full
(`num_tombstones = T > 0`, all tombstone indices referencing keys),
removing a present non-tombstoned key physically deletes the key referenced
by the oldest tombstone (the front of the FIFO), shifts the remaining
tombstones forward decrementing each stored index past the victim, then
appends the new tombstone (itself decremented when past the victim), so
`num_tombstones` equals `T` again afterwards. -/
theorem c2_remove_full_buffer_fifo (p : LeafPage) (key : Int)
    (hs : p.keys.Pairwise (· < ·))
    (hT : 0 < p.tombCnt) (hfull : p.tombs.length = p.tombCnt)
    (hwf : ∀ x ∈ p.tombs, 0 ≤ x ∧ x < (p.keys.length : Int))
    (t : Nat) (ht : t < p.keys.length) (hkey : p.keys.getD t 0 = key)
    (hnt : p.IsTombstone (t : Int) = false) :
    p.Remove key
      = ({ p with
            keys := p.keys.eraseIdx (p.tombs.headD 0).toNat,
            vals := p.vals.eraseIdx (p.tombs.headD 0).toNat,
            tombs := p.tombs.tail.map (fun x => if x > p.tombs.headD 0 then x - 1 else x)
              ++ [if (t : Int) > p.tombs.headD 0 then (t : Int) - 1 else (t : Int)] },
         true)
      ∧ (p.Remove key).1.tombs.length = p.tombCnt := by
  have hne : p.tombs ≠ [] := by
    intro h
    rw [h] at hfull
    simp at hfull
    omega
  have hmain : p.Remove key
      = ({ p with
            keys := p.keys.eraseIdx (p.tombs.headD 0).toNat,
            vals := p.vals.eraseIdx (p.tombs.headD 0).toNat,
            tombs := p.tombs.tail.map (fun x => if x > p.tombs.headD 0 then x - 1 else x)
              ++ [if (t : Int) > p.tombs.headD 0 then (t : Int) - 1 else (t : Int)] },
         true) := by
    unfold LeafPage.Remove
    rw [Lookup_found p key hs t ht hkey]
    have h1 : ¬ ((t : Int) = -1) := by omega
    have h0 : ¬ (p.tombCnt = 0) := by omega
    simp only [h1, if_false, hnt, Bool.false_eq_true, h0]
    unfold LeafPage.AddTombstone
    simp only [h0, if_false, hfull, if_true]
    unfold LeafPage.HandleTombstoneOverflow
    simp
  refine ⟨hmain, ?_⟩
  rw [hmain]
  have htl : p.tombs.tail.length = p.tombCnt - 1 := by
    rw [List.length_tail, hfull]
  simp [htl]
  omega

/-- Witness for C2: keys `[10, 20, 30, 40]`, full tombstone buffer `[0, 1]`
(`T = 2`); removing the present key 30 victimises key 10 (oldest tombstone,
index 0), leaving keys `[20, 30, 40]` and tombstones `[0, 1]` — the
decremented survivor and the new (shifted) tombstone — still `T` many. -/
theorem c2_witness :
    (([10, 20, 30, 40] : List Int).Pairwise (· < ·)) ∧
      LeafPage.Remove ⟨[10, 20, 30, 40], [1, 2, 3, 4], [0, 1], 5, 2, -1⟩ 30
        = (⟨[20, 30, 40], [2, 3, 4], [0, 1], 5, 2, -1⟩, true) ∧
      (LeafPage.Remove ⟨[10, 20, 30, 40], [1, 2, 3, 4], [0, 1], 5, 2, -1⟩ 30).1.tombs.length
        = 2 :=
  ⟨by decide, by
    have h := c2_remove_full_buffer_fifo ⟨[10, 20, 30, 40], [1, 2, 3, 4], [0, 1], 5, 2, -1⟩ 30
      (by decide) (by decide) (by decide) (by decide) 2 (by decide) (by decide) (by decide)
    exact ⟨by simpa using h.1, by simpa using h.2⟩⟩

/-! ## Claim about the tree-level optimistic insert -/

/-- **C1** — evaluation of both revisions of the optimistic-insert decision
at the divergence point: a leaf with `size = max_size - 1` (keys
`[10, 20, 30]`, `max_size = 4`).  The current (refactored) code performs
the insert in place and returns, although `size < max_size - 1` fails; the
pre-refactoring code abandons the optimistic attempt there, as the
specification states. -/
theorem c1_optimistic_guard_divergence :
    insertOptimisticPhase ⟨[10, 20, 30], [1, 2, 3], [], 4, 2, -1⟩ 40 4
      = .performedInPlace (⟨[10, 20, 30, 40], [1, 2, 3, 4], [], 4, 2, -1⟩, true)
    ∧ ¬ ((⟨[10, 20, 30], [1, 2, 3], [], 4, 2, -1⟩ : LeafPage).size + 1
          < (⟨[10, 20, 30], [1, 2, 3], [], 4, 2, -1⟩ : LeafPage).maxSize)
    ∧ insertOptimisticPhasePre ⟨[10, 20, 30], [1, 2, 3], [], 4, 2, -1⟩ 40 4
      = .retryPessimistic := by
  refine ⟨?_, by decide, by decide⟩
  simp [insertOptimisticPhase, IsSafeInsert, LeafPage.size, LeafPage.Insert, bsearchLoop,
    LeafPage.ShiftTombstones]

/-! ## Claim about the ARC replacer -/

/-- **C6** — On every `RecordAccess` that hits the MRU ghost list (the frame
is not alive and the page sits in `mru_ghost_`), the MRU target size `p`
becomes `min(N, p + max(1, |MFU_ghost| / |MRU_ghost|))` (integer division),
the page id is removed from the MRU ghost list, and a new alive, evictable
entry for the frame is created at the front of `mfu_`. -/
theorem c6_record_access_mru_ghost_hit (a : ArcReplacer) (f p : Nat)
    (gs : FrameStatus)
    (hAlive : ArcReplacer.lookupA a.aliveMap f = none)
    (hGhost : ArcReplacer.lookupA a.ghostMap p = some gs)
    (hStatus : gs.arcStatus = ArcStatus.MRU_GHOST)
    (hMem : p ∈ a.mruGhost) :
    (a.RecordAccess f p).mruTargetSize
        = min a.replacerSize
            (a.mruTargetSize + max 1 (a.mfuGhost.length / a.mruGhost.length))
      ∧ (a.RecordAccess f p).mruGhost = a.mruGhost.erase p
      ∧ (a.RecordAccess f p).mfu = f :: a.mfu
      ∧ ArcReplacer.lookupA (a.RecordAccess f p).aliveMap f
          = some ⟨p, f, true, ArcStatus.MFU⟩ := by
  have hstep : a.RecordAccess f p = ArcReplacer.HandleMruGhostHit a f p := by
    unfold ArcReplacer.RecordAccess
    rw [hAlive, hGhost]
    simp [hStatus]
  rw [hstep]
  have hmg : 0 < a.mruGhost.length := List.length_pos_of_mem hMem
  refine ⟨?_, by simp [ArcReplacer.HandleMruGhostHit],
    by simp [ArcReplacer.HandleMruGhostHit],
    by simp [ArcReplacer.HandleMruGhostHit, ArcReplacer.lookupA, ArcReplacer.updateA]⟩
  unfold ArcReplacer.HandleMruGhostHit
  simp only
  rcases le_or_lt a.mfuGhost.length a.mruGhost.length with hc | hc
  · have hdiv : a.mfuGhost.length / a.mruGhost.length ≤ 1 := by
      calc a.mfuGhost.length / a.mruGhost.length
          ≤ a.mruGhost.length / a.mruGhost.length := Nat.div_le_div_right hc
        _ = 1 := Nat.div_self hmg
    rw [if_pos hc]
    rw [Nat.max_eq_left hdiv, Nat.min_comm]
  · have hdiv : 1 ≤ a.mfuGhost.length / a.mruGhost.length :=
      (Nat.one_le_div_iff hmg).mpr (le_of_lt hc)
    rw [if_neg (by omega)]
    rw [Nat.max_eq_right hdiv, Nat.min_comm]

/-- Witness for C6: capacity 3, target 1, ghost lists `mru_ghost = [7]`,
`mfu_ghost = [8, 9]`; accessing page 7 in frame 2 yields target
`min(3, 1 + max(1, 2/1)) = 3`, removes 7 from the ghost list and creates
the evictable MFU entry. -/
theorem c6_witness :
    (ArcReplacer.lookupA ([] : List (Nat × FrameStatus)) 2 = none) ∧
      ((ArcReplacer.RecordAccess
          ⟨[], [], [7], [8, 9], 1, 3, 0,
           [], [(7, ⟨7, 0, false, ArcStatus.MRU_GHOST⟩), (8, ⟨8, 0, false, ArcStatus.MFU_GHOST⟩),
                (9, ⟨9, 0, false, ArcStatus.MFU_GHOST⟩)]⟩ 2 7).mruTargetSize = 3
        ∧ (ArcReplacer.RecordAccess
            ⟨[], [], [7], [8, 9], 1, 3, 0,
             [], [(7, ⟨7, 0, false, ArcStatus.MRU_GHOST⟩), (8, ⟨8, 0, false, ArcStatus.MFU_GHOST⟩),
                  (9, ⟨9, 0, false, ArcStatus.MFU_GHOST⟩)]⟩ 2 7).mruGhost = []) := by
  constructor
  · decide
  · have h := c6_record_access_mru_ghost_hit
      ⟨[], [], [7], [8, 9], 1, 3, 0,
       [], [(7, ⟨7, 0, false, ArcStatus.MRU_GHOST⟩), (8, ⟨8, 0, false, ArcStatus.MFU_GHOST⟩),
            (9, ⟨9, 0, false, ArcStatus.MFU_GHOST⟩)]⟩ 2 7
      ⟨7, 0, false, ArcStatus.MRU_GHOST⟩ (by decide) (by decide) (by decide) (by decide)
    exact ⟨by simpa using h.1, by simpa using h.2.1⟩

/-! ## Claim about the join-executor construction guard -/

/-- **C8** — Constructing a hash-join executor (and likewise a
nested-loop-join executor) whose plan's join type is neither `INNER` nor
`LEFT` raises the not-implemented exception before any tuple is processed
(the `Except.error` carries no executor and leaves the children untouched);
for `INNER` and `LEFT` construction succeeds with the children intact. -/
theorem c8_join_ctor_rejects_unsupported :
    ∀ (α : Type) (l r : α) (jt : JoinType),
      ((HashJoinExecutorCtor α jt l r = .error .notImplemented
          ∧ NestedLoopJoinExecutorCtor α jt l r = .error .notImplemented)
        ↔ (jt ≠ JoinType.LEFT ∧ jt ≠ JoinType.INNER))
      ∧ (jt = JoinType.INNER ∨ jt = JoinType.LEFT →
          HashJoinExecutorCtor α jt l r = .ok ⟨jt, l, r⟩
            ∧ NestedLoopJoinExecutorCtor α jt l r = .ok ⟨jt, l, r⟩) := by
  intro α l r jt
  cases jt <;> simp [HashJoinExecutorCtor, NestedLoopJoinExecutorCtor]

/-! ## Claim about the DML executors -/

/-- Splitting the insert loop at a batch boundary. -/
theorem processInserts_append {H Tup : Type} (ins : H → Tup → Option H)
    (h : H) (b rest : List Tup) :
    processInserts ins h (b ++ rest)
      = ((processInserts ins (processInserts ins h b).1 rest).1,
         (processInserts ins h b).2 + (processInserts ins (processInserts ins h b).1 rest).2) := by
  induction b generalizing h with
  | nil => simp [processInserts]
  | cons t ts ih =>
    simp only [List.cons_append, processInserts]
    cases ins h t with
    | none => simp [ih]
    | some h1 => simp [processInserts, ih h1]; omega

/-- Batch boundaries do not affect the insert loop: processing the child's
batches equals processing their concatenation. -/
theorem processInsertBatches_eq_flatten {H Tup : Type} (ins : H → Tup → Option H)
    (h : H) (bs : List (List Tup)) :
    processInsertBatches ins h bs = processInserts ins h bs.flatten := by
  induction bs generalizing h with
  | nil => simp [processInsertBatches, processInserts]
  | cons b rest ih =>
    simp only [processInsertBatches, List.flatten_cons]
    rw [processInserts_append, ih]

/-- The delete loop counts every row it is given. -/
theorem processDeletes_count {H Tup : Type} (upd : H → Tup → H)
    (h : H) (ts : List Tup) :
    (processDeletes upd h ts).2 = ts.length := by
  induction ts generalizing h with
  | nil => simp [processDeletes]
  | cons t ts ih => simp [processDeletes, ih]

/-- The batched delete loop counts every row of every batch. -/
theorem processDeleteBatches_count {H Tup : Type} (upd : H → Tup → H)
    (h : H) (bs : List (List Tup)) :
    (processDeleteBatches upd h bs).2 = bs.flatten.length := by
  induction bs generalizing h with
  | nil => simp [processDeleteBatches]
  | cons b rest ih =>
    simp [processDeleteBatches, processDeletes_count, ih]

/-- Splitting the update loop at a batch boundary. -/
theorem processUpdates_append {H Tup : Type} (markDel : H → Tup → H)
    (xf : Tup → Tup) (ins : H → Tup → Option H) (h : H) (b rest : List Tup) :
    processUpdates markDel xf ins h (b ++ rest)
      = ((processUpdates markDel xf ins (processUpdates markDel xf ins h b).1 rest).1,
         (processUpdates markDel xf ins h b).2
           + (processUpdates markDel xf ins (processUpdates markDel xf ins h b).1 rest).2) := by
  induction b generalizing h with
  | nil => simp [processUpdates]
  | cons t ts ih =>
    simp only [List.cons_append, processUpdates]
    cases ins (markDel h t) (xf t) with
    | none => simp [ih]
    | some h2 => simp [processUpdates, ih h2]; omega

/-- Batch boundaries do not affect the update loop. -/
theorem processUpdateBatches_eq_flatten {H Tup : Type} (markDel : H → Tup → H)
    (xf : Tup → Tup) (ins : H → Tup → Option H) (h : H) (bs : List (List Tup)) :
    processUpdateBatches markDel xf ins h bs = processUpdates markDel xf ins h bs.flatten := by
  induction bs generalizing h with
  | nil => simp [processUpdateBatches, processUpdates]
  | cons b rest ih =>
    simp only [processUpdateBatches, List.flatten_cons]
    rw [processUpdates_append, ih]

/-- A finished insert executor keeps returning `([], false)`. -/
theorem insertExec_nthNext_finished {H Tup : Type}
    (e : InsertExecutorState H Tup) (hf : e.finished = true) :
    ∀ n, (e.nthNext n).2 = ([], false) := by
  intro n
  induction n generalizing e with
  | zero => simp [InsertExecutorState.nthNext, InsertExecutorState.Next, hf]
  | succ n ih =>
    have hnext : e.Next = (e, [], false) := by
      simp [InsertExecutorState.Next, hf]
    simp [InsertExecutorState.nthNext, hnext]
    exact ih e hf

/-- A finished delete executor keeps returning `([], false)`. -/
theorem deleteExec_nthNext_finished {H Tup : Type}
    (e : DeleteExecutorState H Tup) (hf : e.finished = true) :
    ∀ n, (e.nthNext n).2 = ([], false) := by
  intro n
  induction n generalizing e with
  | zero => simp [DeleteExecutorState.nthNext, DeleteExecutorState.Next, hf]
  | succ n ih =>
    have hnext : e.Next = (e, [], false) := by
      simp [DeleteExecutorState.Next, hf]
    simp [DeleteExecutorState.nthNext, hnext]
    exact ih e hf

/-- A finished update executor keeps returning `([], false)`. -/
theorem updateExec_nthNext_finished {H Tup : Type}
    (e : UpdateExecutorState H Tup) (hf : e.finished = true) :
    ∀ n, (e.nthNext n).2 = ([], false) := by
  intro n
  induction n generalizing e with
  | zero => simp [UpdateExecutorState.nthNext, UpdateExecutorState.Next, hf]
  | succ n ih =>
    have hnext : e.Next = (e, [], false) := by
      simp [UpdateExecutorState.Next, hf]
    simp [UpdateExecutorState.nthNext, hnext]
    exact ih e hf

/-- **C7** — Each of the `Insert`, `Update` and `Delete` executors returns
`true` from `next()` exactly once, producing a single batch containing
exactly one integer tuple whose value equals the number of rows that
executor affected (every child row for delete; every successfully
(re-)inserted row for insert/update, independent of how the child batched
them), and returns `false` with no output on every subsequent call. -/
theorem c7_dml_executors_emit_count_once :
    ∀ (H Tup : Type) (ins : H → Tup → Option H) (upd : H → Tup → H)
      (xf : Tup → Tup) (h : H) (bs : List (List Tup)),
      ((InsertExecutorState.mk ins h bs false).Next).2
          = ([((processInserts ins h bs.flatten).2 : Int)], true)
      ∧ (∀ n, (((InsertExecutorState.mk ins h bs false).Next).1.nthNext n).2 = ([], false))
      ∧ ((DeleteExecutorState.mk upd h bs false).Next).2
          = ([((bs.flatten.length : Nat) : Int)], true)
      ∧ (∀ n, (((DeleteExecutorState.mk upd h bs false).Next).1.nthNext n).2 = ([], false))
      ∧ ((UpdateExecutorState.mk upd xf ins h bs false).Next).2
          = ([((processUpdates upd xf ins h bs.flatten).2 : Int)], true)
      ∧ (∀ n, (((UpdateExecutorState.mk upd xf ins h bs false).Next).1.nthNext n).2 = ([], false)) := by
  intro H Tup ins upd xf h bs
  refine ⟨?_, ?_, ?_, ?_, ?_, ?_⟩
  · simp [InsertExecutorState.Next, processInsertBatches_eq_flatten]
  · exact insertExec_nthNext_finished _ (by simp [InsertExecutorState.Next])
  · simp [DeleteExecutorState.Next, processDeleteBatches_count]
  · exact deleteExec_nthNext_finished _ (by simp [DeleteExecutorState.Next])
  · simp [UpdateExecutorState.Next, processUpdateBatches_eq_flatten]
  · exact updateExec_nthNext_finished _ (by simp [UpdateExecutorState.Next])

/-- Witness for C7 with a concrete heap (`Nat` accumulator), child batches
`[[1, 2], [3]]`: each executor emits `true` once with the single integer
tuple `3`, and the next two calls return `false` with no output. -/
theorem c7_witness :
    ((InsertExecutorState.mk (fun (h t : Nat) => some (h + t)) 0 [[1, 2], [3]] false).Next).2
        = ([(3 : Int)], true)
      ∧ ((((InsertExecutorState.mk (fun (h t : Nat) => some (h + t)) 0 [[1, 2], [3]]
            false).Next).1.nthNext 0).2 = ([], false))
      ∧ ((DeleteExecutorState.mk (fun (h _ : Nat) => h) 0 [[1, 2], [3]] false).Next).2
        = ([(3 : Int)], true)
      ∧ ((UpdateExecutorState.mk (fun (h _ : Nat) => h) id
            (fun (h t : Nat) => some (h + t)) 0 [[1, 2], [3]] false).Next).2
        = ([(3 : Int)], true) := by
  have h := c7_dml_executors_emit_count_once Nat Nat (fun h t => some (h + t))
    (fun h _ => h) id 0 [[1, 2], [3]]
  refine ⟨?_, h.2.1 0, ?_, ?_⟩
  · rw [h.1]
    simp [processInserts]
  · rw [h.2.2.1]
    simp
  · rw [h.2.2.2.2.1]
    simp [processUpdates]

/-- Witness for C8: with unit children, join type `RIGHT` is rejected by
both constructors while `INNER` and `LEFT` construct successfully. -/
theorem c8_witness :
    (HashJoinExecutorCtor Unit JoinType.RIGHT () () = .error .notImplemented
        ∧ NestedLoopJoinExecutorCtor Unit JoinType.RIGHT () () = .error .notImplemented)
      ∧ HashJoinExecutorCtor Unit JoinType.INNER () ()
          = .ok ⟨JoinType.INNER, (), ()⟩
      ∧ NestedLoopJoinExecutorCtor Unit JoinType.LEFT () ()
          = .ok ⟨JoinType.LEFT, (), ()⟩ :=
  ⟨(c8_join_ctor_rejects_unsupported Unit () () JoinType.RIGHT).1.mpr
      ⟨by decide, by decide⟩,
   ((c8_join_ctor_rejects_unsupported Unit () () JoinType.INNER).2 (Or.inl rfl)).1,
   ((c8_join_ctor_rejects_unsupported Unit () () JoinType.LEFT).2 (Or.inr rfl)).2⟩

/-! ## Claim about the intermediate result page -/

theorem readBytes_length (mem : Nat → Nat) (addr len : Nat) :
    (readBytes mem addr len).length = len := by
  simp [readBytes]

/-- Reading back a region just written returns the written bytes. -/
theorem readBytes_writeBytes_eq (mem : Nat → Nat) (addr : Nat) (bs : List Nat) :
    readBytes (writeBytes mem addr bs) addr bs.length = bs := by
  apply List.ext_getElem
  · simp [readBytes]
  · intro i h1 h2
    have hi : i < bs.length := by simpa [readBytes] using h1
    simp only [readBytes, List.getElem_map, List.getElem_range, writeBytes]
    rw [if_pos ⟨Nat.le_add_right _ _, by omega⟩]
    simp only [Nat.add_sub_cancel_left]
    exact List.getD_eq_getElem bs 0 hi

/-- A write leaves a disjoint region untouched. -/
theorem readBytes_writeBytes_disjoint (mem : Nat → Nat) (waddr : Nat) (ws : List Nat)
    (addr len : Nat) (h : addr + len ≤ waddr ∨ waddr + ws.length ≤ addr) :
    readBytes (writeBytes mem waddr ws) addr len = readBytes mem addr len := by
  apply List.ext_getElem
  · simp [readBytes]
  · intro i h1 h2
    have hi : i < len := by simpa [readBytes] using h1
    simp only [readBytes, List.getElem_map, List.getElem_range, writeBytes]
    rw [if_neg (by omega)]

/-- Reading `m + n` bytes is reading `m` then `n`. -/
theorem readBytes_split (mem : Nat → Nat) (addr m n : Nat) :
    readBytes mem addr (m + n) = readBytes mem addr m ++ readBytes mem (addr + m) n := by
  simp only [readBytes, List.range_add, List.map_append, List.map_map]
  congr 1
  apply List.map_congr_left
  intro i _
  simp [Function.comp, Nat.add_assoc]

theorem encode32_length (v : Nat) : (encode32 v).length = 4 := by simp [encode32]

/-- Decoding a region that holds `encode32 v` recovers `v` (`v` within
`uint32_t` range). -/
theorem decode32_encode32_region (mem : Nat → Nat) (addr v : Nat)
    (hv : v < 4294967296) (h : readBytes mem addr 4 = encode32 v) :
    decode32 mem addr = v := by
  have hexp : readBytes mem addr 4
      = [mem addr, mem (addr + 1), mem (addr + 2), mem (addr + 3)] := by
    simp [readBytes, List.range_succ]
  rw [hexp] at h
  unfold encode32 at h
  simp only [List.cons.injEq, and_true] at h
  obtain ⟨h0, h1, h2, h3⟩ := h
  unfold decode32
  rw [h0, h1, h2, h3]
  omega

theorem prefixSize_zero (ts : List TupleBytes) : prefixSize ts 0 = 0 := by
  simp [prefixSize]

/-- `prefixSize` over the whole list. -/
theorem prefixSize_length (ts : List TupleBytes) :
    prefixSize ts ts.length = (ts.map tupleTotal).sum := by
  simp [prefixSize]

theorem prefixSize_succ (ts : List TupleBytes) (k : Nat) (hk : k < ts.length) :
    prefixSize ts (k + 1) = prefixSize ts k + tupleTotal (ts.getD k []) := by
  unfold prefixSize
  rw [List.map_take, List.map_take]
  have hk' : k < (ts.map tupleTotal).length := by simpa using hk
  rw [List.sum_take_succ _ k hk']
  congr 1
  simp [List.getElem?_eq_getElem hk]

theorem prefixSize_le (ts : List TupleBytes) (k k' : Nat) (h : k ≤ k') :
    prefixSize ts k ≤ prefixSize ts k' := by
  unfold prefixSize
  have heq : ts.take k = (ts.take k').take k := by
    rw [List.take_take, Nat.min_eq_left h]
  rw [heq]
  conv_rhs => rw [← List.take_append_drop k (ts.take k')]
  rw [List.map_append, List.sum_append]
  omega

theorem prefixSize_append (ts ts' : List TupleBytes) (k : Nat) (hk : k ≤ ts.length) :
    prefixSize (ts ++ ts') k = prefixSize ts k := by
  unfold prefixSize
  rw [List.take_append_of_le_length hk]

theorem prefixSize_snoc (ts : List TupleBytes) (t : TupleBytes) :
    prefixSize (ts ++ [t]) (ts.length + 1) = prefixSize ts ts.length + tupleTotal t := by
  unfold prefixSize
  rw [List.take_of_length_le (by simp), List.take_length, List.map_append, List.sum_append]
  simp

theorem getD_append_left {α : Type} (l1 l2 : List α) (d : α) (i : Nat)
    (h : i < l1.length) : (l1 ++ l2).getD i d = l1.getD i d := by
  unfold List.getD
  rw [List.get?_eq_getElem?, List.get?_eq_getElem?, List.getElem?_append_left h]

theorem getD_append_last {α : Type} (l1 : List α) (t d : α) :
    (l1 ++ [t]).getD l1.length d = t := by
  unfold List.getD
  rw [List.get?_eq_getElem?, List.getElem?_append_right (le_refl _)]
  simp

/-- One successful `InsertTuple` extends the invariant by the new tuple. -/
theorem IRInv_insert (ts : List TupleBytes) (p : IRPage) (t : TupleBytes)
    (hinv : IRInv ts p) (hok : (p.InsertTuple t).2 = true) :
    IRInv (ts ++ [t]) (p.InsertTuple t).1 := by
  obtain ⟨hn, hf, hfit, hmem⟩ := hinv
  by_cases hg : p.freeSpaceOffset < 8 + (p.numTuples + 1) * 4 + (4 + t.length)
  · exfalso
    unfold IRPage.InsertTuple at hok
    simp [hg] at hok
  have hstep : p.InsertTuple t
      = ({ numTuples := p.numTuples + 1,
           freeSpaceOffset := p.freeSpaceOffset - (4 + t.length),
           mem := writeBytes
             (writeBytes p.mem (p.freeSpaceOffset - (4 + t.length)) (serializeTuple t))
             (8 + p.numTuples * 4)
             (encode32 (p.freeSpaceOffset - (4 + t.length))) }, true) := by
    unfold IRPage.InsertTuple
    simp [hg]
  rw [hstep]
  have hS4096 : prefixSize ts ts.length ≤ 4096 := by
    have := hfit
    unfold BUSTUB_PAGE_SIZE at this
    omega
  have hfree : 8 + (ts.length + 1) * 4 + (4 + t.length) ≤ p.freeSpaceOffset := by
    omega
  have hfreeval : p.freeSpaceOffset = 4096 - prefixSize ts ts.length := by
    rw [hf]; rfl
  have hSnew : prefixSize (ts ++ [t]) (ts.length + 1)
      = prefixSize ts ts.length + (4 + t.length) := by
    rw [prefixSize_snoc]; rfl
  have hofftop : p.freeSpaceOffset - (4 + t.length)
      = 4096 - prefixSize (ts ++ [t]) (ts.length + 1) := by
    rw [hSnew, hfreeval]; omega
  refine ⟨by simp [hn], ?_, ?_, ?_⟩
  · simp only [List.length_append, List.length_cons, List.length_nil]
    rw [hofftop]; rfl
  · simp only [List.length_append, List.length_cons, List.length_nil]
    rw [hSnew]
    unfold BUSTUB_PAGE_SIZE
    omega
  · intro i hi
    simp only [List.length_append, List.length_cons, List.length_nil] at hi
    have hofflb : 8 + 4 * (ts.length + 1) ≤ p.freeSpaceOffset - (4 + t.length) := by omega
    rcases Nat.lt_or_ge i ts.length with hilt | hige
    · -- an old slot / payload: both writes are disjoint from its regions
      obtain ⟨hslot, hpay⟩ := hmem i hilt
      have hoffi : tupleOffset (ts ++ [t]) i = tupleOffset ts i := by
        unfold tupleOffset
        rw [prefixSize_append ts [t] (i + 1) (by omega)]
      have hgdi : (ts ++ [t]).getD i [] = ts.getD i [] := getD_append_left ts [t] [] i hilt
      have hoffi_ge : p.freeSpaceOffset ≤ tupleOffset ts i := by
        unfold tupleOffset BUSTUB_PAGE_SIZE
        have := prefixSize_le ts (i + 1) ts.length (by omega)
        omega
      have htoti : tupleTotal (ts.getD i []) + prefixSize ts i = prefixSize ts (i + 1) := by
        have := prefixSize_succ ts i hilt
        omega
      have hoffi_fit : tupleOffset ts i + tupleTotal (ts.getD i []) ≤ 4096 := by
        unfold tupleOffset BUSTUB_PAGE_SIZE
        have h1 := prefixSize_succ ts i hilt
        have h2 := prefixSize_le ts (i + 1) ts.length (by omega)
        omega
      have hselen : (serializeTuple t).length = 4 + t.length := by
        unfold serializeTuple
        rw [List.length_append, encode32_length]
      constructor
      · have hd1 : readBytes
            (writeBytes
              (writeBytes p.mem (p.freeSpaceOffset - (4 + t.length)) (serializeTuple t))
              (8 + p.numTuples * 4)
              (encode32 (p.freeSpaceOffset - (4 + t.length))))
            (8 + i * 4) 4
            = readBytes
              (writeBytes p.mem (p.freeSpaceOffset - (4 + t.length)) (serializeTuple t))
              (8 + i * 4) 4 :=
          readBytes_writeBytes_disjoint _ _ _ _ _ (Or.inl (by omega))
        have hd2 : readBytes
            (writeBytes p.mem (p.freeSpaceOffset - (4 + t.length)) (serializeTuple t))
            (8 + i * 4) 4
            = readBytes p.mem (8 + i * 4) 4 :=
          readBytes_writeBytes_disjoint _ _ _ _ _ (Or.inl (by omega))
        rw [hoffi]
        simp only [hd1, hd2]
        exact hslot
      · have hd1 : readBytes
            (writeBytes
              (writeBytes p.mem (p.freeSpaceOffset - (4 + t.length)) (serializeTuple t))
              (8 + p.numTuples * 4)
              (encode32 (p.freeSpaceOffset - (4 + t.length))))
            (tupleOffset ts i) (tupleTotal (ts.getD i []))
            = readBytes
              (writeBytes p.mem (p.freeSpaceOffset - (4 + t.length)) (serializeTuple t))
              (tupleOffset ts i) (tupleTotal (ts.getD i [])) :=
          readBytes_writeBytes_disjoint _ _ _ _ _
            (Or.inr (by rw [encode32_length]; omega))
        have hd2 : readBytes
            (writeBytes p.mem (p.freeSpaceOffset - (4 + t.length)) (serializeTuple t))
            (tupleOffset ts i) (tupleTotal (ts.getD i []))
            = readBytes p.mem (tupleOffset ts i) (tupleTotal (ts.getD i [])) :=
          readBytes_writeBytes_disjoint _ _ _ _ _
            (Or.inr (by rw [hselen]; omega))
        rw [hoffi, hgdi]
        simp only [hd1, hd2]
        exact hpay
    · -- the new slot / payload
      have hieq : i = ts.length := by omega
      subst hieq
      have hoffnew : tupleOffset (ts ++ [t]) ts.length
          = p.freeSpaceOffset - (4 + t.length) := by
        unfold tupleOffset BUSTUB_PAGE_SIZE
        omega
      have hgd : (ts ++ [t]).getD ts.length [] = t := getD_append_last ts t []
      constructor
      · rw [hn, hoffnew]
        have := readBytes_writeBytes_eq
          (writeBytes p.mem (p.freeSpaceOffset - (4 + t.length)) (serializeTuple t))
          (8 + ts.length * 4) (encode32 (p.freeSpaceOffset - (4 + t.length)))
        rw [encode32_length] at this
        exact this
      · rw [hn, hoffnew, hgd]
        rw [readBytes_writeBytes_disjoint _ _ _ _ _
          (Or.inr (by rw [encode32_length]; omega))]
        have := readBytes_writeBytes_eq p.mem
          (p.freeSpaceOffset - (4 + t.length)) (serializeTuple t)
        have hlen : (serializeTuple t).length = tupleTotal t := by
          unfold serializeTuple tupleTotal
          rw [List.length_append, encode32_length]
        rw [hlen] at this
        exact this

/-- From the invariant, `GetTuple i` recovers the `i`-th inserted tuple. -/
theorem IRInv_GetTuple (ts : List TupleBytes) (p : IRPage) (hinv : IRInv ts p)
    (i : Nat) (hi : i < ts.length) : p.GetTuple i = ts.getD i [] := by
  obtain ⟨hn, hf, hfit, hmem⟩ := hinv
  obtain ⟨hslot, hpay⟩ := hmem i hi
  have hofflt : tupleOffset ts i < 4294967296 := by
    unfold tupleOffset BUSTUB_PAGE_SIZE
    omega
  have hoff : decode32 p.mem (8 + i * 4) = tupleOffset ts i :=
    decode32_encode32_region _ _ _ hofflt hslot
  have hpay' : readBytes p.mem (tupleOffset ts i) 4
        ++ readBytes p.mem (tupleOffset ts i + 4) (ts.getD i []).length
      = encode32 (ts.getD i []).length ++ ts.getD i [] := by
    rw [← readBytes_split]
    exact hpay
  have hlens : (readBytes p.mem (tupleOffset ts i) 4).length
      = (encode32 (ts.getD i []).length).length := by
    rw [readBytes_length, encode32_length]
  obtain ⟨h1, h2⟩ := List.append_inj hpay' hlens
  have hlenlt : (ts.getD i []).length < 4294967296 := by
    have hstep := prefixSize_succ ts i hi
    have hle := prefixSize_le ts (i + 1) ts.length (by omega)
    unfold tupleTotal at hstep
    unfold BUSTUB_PAGE_SIZE at hfit
    omega
  have hdl : decode32 p.mem (tupleOffset ts i) = (ts.getD i []).length :=
    decode32_encode32_region _ _ _ hlenlt h1
  unfold IRPage.GetTuple
  rw [hoff]
  show readBytes p.mem (tupleOffset ts i + 4) (decode32 p.mem (tupleOffset ts i))
      = ts.getD i []
  rw [hdl]
  exact h2

/-- Running a sequence of all-successful inserts extends the invariant. -/
theorem insertAllIR_inv :
    ∀ (ts done : List TupleBytes) (p : IRPage), IRInv done p →
      (insertAllIR p ts).2 = true → IRInv (done ++ ts) (insertAllIR p ts).1 := by
  intro ts
  induction ts with
  | nil =>
    intro done p h _
    simpa [insertAllIR] using h
  | cons t ts ih =>
    intro done p h hok
    unfold insertAllIR at hok ⊢
    simp only [Bool.and_eq_true] at hok
    have h1 := IRInv_insert done p t h hok.1
    have h2 := ih (done ++ [t]) (p.InsertTuple t).1 h1 hok.2
    simpa [List.append_assoc] using h2

/-- **C10** — For every sequence of `InsertTuple` calls on an initialised
intermediate-result page that all return `true`, `GetTuple(i)` returns
exactly the `i`-th inserted tuple for every `i < num_tuples`; and an
`InsertTuple` call that returns `false` because the tuple does not fit
leaves `num_tuples`, `free_space_offset`, the slot array and all stored
tuple bytes unchanged (the page is returned untouched). -/
theorem c10_intermediate_result_page_roundtrip (p0 : IRPage) (ts : List TupleBytes)
    (hok : (insertAllIR p0.Init ts).2 = true) :
    (∀ i, i < ts.length → (insertAllIR p0.Init ts).1.GetTuple i = ts.getD i [])
      ∧ ((insertAllIR p0.Init ts).1.numTuples = ts.length)
      ∧ (∀ (p : IRPage) (t : TupleBytes),
          (p.InsertTuple t).2 = false → (p.InsertTuple t).1 = p) := by
  have hinit : IRInv [] p0.Init := by
    refine ⟨rfl, by simp [IRPage.Init, prefixSize], ?_, by intro i hi; simp at hi⟩
    simp [prefixSize]
    unfold BUSTUB_PAGE_SIZE
    omega
  have hrun := insertAllIR_inv ts [] p0.Init hinit hok
  simp only [List.nil_append] at hrun
  refine ⟨fun i hi => IRInv_GetTuple ts _ hrun i hi, hrun.1, ?_⟩
  intro p t hfail
  unfold IRPage.InsertTuple at hfail ⊢
  by_cases hg : p.freeSpaceOffset < 8 + (p.numTuples + 1) * 4 + (4 + t.length)
  · simp [hg]
  · simp [hg] at hfail

/-- Witness for C10: inserting `[5]` then `[6, 7]` into a fresh page
succeeds and both tuples read back intact. -/
theorem c10_witness :
    ((insertAllIR (IRPage.mk 0 0 (fun _ => 0)).Init [[5], [6, 7]]).2 = true)
      ∧ (insertAllIR (IRPage.mk 0 0 (fun _ => 0)).Init [[5], [6, 7]]).1.GetTuple 0 = [5]
      ∧ (insertAllIR (IRPage.mk 0 0 (fun _ => 0)).Init [[5], [6, 7]]).1.GetTuple 1 = [6, 7] := by
  have hok : (insertAllIR (IRPage.mk 0 0 (fun _ => 0)).Init [[5], [6, 7]]).2 = true := by
    simp [insertAllIR, IRPage.Init, IRPage.InsertTuple, BUSTUB_PAGE_SIZE]
  have h := c10_intermediate_result_page_roundtrip (IRPage.mk 0 0 (fun _ => 0)) [[5], [6, 7]] hok
  exact ⟨hok, h.1 0 (by decide), h.1 1 (by decide)⟩

/-! ## Claim about the index iterator -/

theorem chainLinked_tail (e : Int × LeafPage) (rest : List (Int × LeafPage))
    (h : chainLinked (e :: rest)) : chainLinked rest := by
  cases rest with
  | nil => trivial
  | cons e' r =>
    obtain ⟨pid, l⟩ := e
    obtain ⟨pid', l'⟩ := e'
    exact h.2.2

theorem leafLiveKeysFrom_stop (l : LeafPage) (i : Nat) (h : l.size ≤ i) :
    leafLiveKeysFrom l i = [] := by
  unfold leafLiveKeysFrom
  rw [Nat.sub_eq_zero_of_le h]
  rfl

theorem leafLiveKeysFrom_tomb (l : LeafPage) (i : Nat) (hi : i < l.size)
    (ht : l.IsTombstone (i : Int) = true) :
    leafLiveKeysFrom l i = leafLiveKeysFrom l (i + 1) := by
  unfold leafLiveKeysFrom
  have hcount : l.size - i = (l.size - (i + 1)) + 1 := by omega
  rw [hcount, List.range'_succ]
  simp [ht]

theorem leafLiveKeysFrom_live (l : LeafPage) (i : Nat) (hi : i < l.size)
    (ht : l.IsTombstone (i : Int) = false) :
    leafLiveKeysFrom l i = l.keys.getD i 0 :: leafLiveKeysFrom l (i + 1) := by
  unfold leafLiveKeysFrom
  have hcount : l.size - i = (l.size - (i + 1)) + 1 := by omega
  rw [hcount, List.range'_succ]
  simp [ht]

/-- On a well-linked chain the iterator yields, from cursor `(chain, idx)`,
exactly the live keys of the current page from `idx` on, followed by the
live keys of the remaining pages. -/
theorem iterKeys_spec :
    ∀ (c : List (Int × LeafPage)) (idx : Nat), chainLinked c →
      iterKeys c idx
        = (match c with
           | [] => []
           | (_, l) :: r => leafLiveKeysFrom l idx ++ chainLiveKeys r) := by
  intro c idx
  induction c, idx using iterKeys.induct with
  | case1 idx =>
    intro _
    simp [iterKeys]
  | case2 pid leaf rest idx hge hnext ih =>
    intro hlink
    rw [iterKeys]
    simp only [if_pos hge, if_pos hnext]
    rw [ih (chainLinked_tail _ _ hlink)]
    rw [leafLiveKeysFrom_stop leaf idx (by omega)]
    cases rest with
    | nil => simp [chainLiveKeys]
    | cons e' r' =>
      obtain ⟨pid', l'⟩ := e'
      simp [chainLiveKeys, leafLiveKeys]
  | case3 pid leaf rest idx hge hnext =>
    intro hlink
    rw [iterKeys]
    simp only [if_pos hge, if_neg hnext]
    rw [leafLiveKeysFrom_stop leaf idx (by omega)]
    cases rest with
    | nil => simp [chainLiveKeys]
    | cons e' r' =>
      exfalso
      obtain ⟨pid', l'⟩ := e'
      have hnx : leaf.nextPageId = pid' := hlink.2.1
      have hpid' : pid' ≠ -1 := by
        cases r' with
        | nil => exact hlink.2.2.1
        | cons e'' r'' =>
          obtain ⟨pid'', l''⟩ := e''
          exact hlink.2.2.1
      simp only [ne_eq, not_not] at hnext
      rw [hnext] at hnx
      exact hpid' hnx.symm
  | case4 pid leaf rest idx hge ht ih =>
    intro hlink
    rw [iterKeys]
    simp only [if_neg hge, if_pos ht]
    rw [ih hlink]
    rw [leafLiveKeysFrom_tomb leaf idx (by omega) ht]
  | case5 pid leaf rest idx hge ht ih =>
    intro hlink
    rw [iterKeys]
    simp only [if_neg hge, if_neg ht]
    rw [ih hlink]
    rw [leafLiveKeysFrom_live leaf idx (by omega) (by simpa using ht)]
    simp

/-- The yielded key sequence is a sublist of the chain's full key sequence
(the current page's keys from the cursor slot on, then the rest). -/
theorem iterKeys_sublist :
    ∀ (c : List (Int × LeafPage)) (idx : Nat),
      List.Sublist (iterKeys c idx)
        (match c with
         | [] => []
         | (_, l) :: r => l.keys.drop idx ++ allChainKeys r) := by
  intro c idx
  induction c, idx using iterKeys.induct with
  | case1 idx =>
    simp [iterKeys]
  | case2 pid leaf rest idx hge hnext ih =>
    rw [iterKeys]
    simp only [if_pos hge, if_pos hnext]
    have hdrop : leaf.keys.drop idx = [] :=
      List.drop_eq_nil_of_le (by simpa [LeafPage.size] using hge)
    rw [hdrop, List.nil_append]
    refine List.Sublist.trans ih ?_
    cases rest with
    | nil => simp [allChainKeys]
    | cons e' r' =>
      obtain ⟨pid', l'⟩ := e'
      simp [allChainKeys]
  | case3 pid leaf rest idx hge hnext =>
    rw [iterKeys]
    simp only [if_pos hge, if_neg hnext]
    exact List.nil_sublist _
  | case4 pid leaf rest idx hge ht ih =>
    rw [iterKeys]
    simp only [if_neg hge, if_pos ht]
    refine List.Sublist.trans ih ?_
    simp only
    have hidx : idx < leaf.keys.length := by
      simpa [LeafPage.size] using hge
    rw [List.drop_eq_getElem_cons hidx]
    exact List.Sublist.cons _ (List.Sublist.refl _)
  | case5 pid leaf rest idx hge ht ih =>
    rw [iterKeys]
    simp only [if_neg hge, if_neg ht]
    have hidx : idx < leaf.keys.length := by
      simpa [LeafPage.size] using hge
    have hkey : leaf.keys.getD idx 0 = leaf.keys[idx] := List.getD_eq_getElem _ 0 hidx
    rw [hkey]
    have := ih
    simp only at this ⊢
    rw [List.drop_eq_getElem_cons hidx]
    exact List.Sublist.cons₂ _ this

/-- On a chain of valid page ids, the normalised cursor compares equal to
`End()` exactly when its page id is invalid. -/
theorem skipLoop_end_iff :
    ∀ (c : List (Int × LeafPage)), (∀ e ∈ c, e.1 ≠ -1) → ∀ idx : Nat,
      (iterEq (skipLoop c idx) endIter = true ↔ (skipLoop c idx).1 = -1) := by
  intro c hpids idx
  induction c, idx using skipLoop.induct with
  | case1 idx =>
    simp [skipLoop, iterEq, endIter]
  | case2 pid leaf rest idx hge hnext ih =>
    rw [skipLoop]
    simp only [if_pos hge, if_pos hnext]
    exact ih (fun e he => hpids e (List.mem_cons_of_mem _ he))
  | case3 pid leaf rest idx hge hnext =>
    rw [skipLoop]
    simp only [if_pos hge, if_neg hnext]
    simp [iterEq, endIter]
  | case4 pid leaf rest idx hge ht ih =>
    rw [skipLoop]
    simp only [if_neg hge, if_pos ht]
    exact ih hpids
  | case5 pid leaf rest idx hge ht =>
    rw [skipLoop]
    simp only [if_neg hge, if_neg ht]
    have hpid : pid ≠ -1 := hpids (pid, leaf) (List.mem_cons_self _ _)
    simp [iterEq, endIter, hpid]

/-- **C4** — Over any well-linked leaf chain whose concatenated keys are
strictly sorted (the tree's structural invariant, maintained by every
sequence of inserts and removes), iterating from `begin()` to `end()`
yields keys in strictly ascending order with no duplicates, and yields
exactly the keys that are not currently tombstoned, in order; advancing
past the last slot of a leaf follows `next_page_id` and resets the slot to
0 (or becomes the end sentinel when the link is invalid); and a cursor
equals `end()` exactly when its page id is invalid. -/
theorem c4_iterator_traversal (chain : List (Int × LeafPage))
    (hlink : chainLinked chain)
    (hsort : (allChainKeys chain).Pairwise (· < ·)) :
    (iterKeys chain 0).Pairwise (· < ·)
      ∧ iterKeys chain 0 = chainLiveKeys chain
      ∧ (∀ (pid : Int) (leaf : LeafPage) (rest : List (Int × LeafPage)) (idx : Nat),
          leaf.size ≤ idx →
          (leaf.nextPageId ≠ -1 → skipLoop ((pid, leaf) :: rest) idx = skipLoop rest 0)
            ∧ (leaf.nextPageId = -1 → skipLoop ((pid, leaf) :: rest) idx = endIter))
      ∧ (∀ (c : List (Int × LeafPage)), (∀ e ∈ c, e.1 ≠ -1) → ∀ idx : Nat,
          (iterEq (skipLoop c idx) endIter = true ↔ (skipLoop c idx).1 = -1)) := by
  have hsub : List.Sublist (iterKeys chain 0) (allChainKeys chain) := by
    have h := iterKeys_sublist chain 0
    cases chain with
    | nil => simpa [allChainKeys] using h
    | cons e r =>
      obtain ⟨pid, l⟩ := e
      simpa [allChainKeys] using h
  refine ⟨hsort.sublist hsub, ?_, ?_, skipLoop_end_iff⟩
  · have h := iterKeys_spec chain 0 hlink
    cases chain with
    | nil => simpa [chainLiveKeys] using h
    | cons e r =>
      obtain ⟨pid, l⟩ := e
      rw [h]
      simp [chainLiveKeys, leafLiveKeys]
  · intro pid leaf rest idx hge
    constructor
    · intro hnext
      rw [skipLoop]
      simp [hge, hnext]
    · intro hnext
      rw [skipLoop]
      simp [hge, hnext, endIter]

/-- Witness for C4: a two-leaf chain (page 1: keys `[10, 20]`, slot 0
tombstoned, linked to page 2: keys `[30]`); the iterator yields `[20, 30]`
— sorted, duplicate-free, tombstone-skipping. -/
theorem c4_witness :
    chainLinked [((1 : Int), ⟨[10, 20], [1, 2], [0], 3, 2, 2⟩),
                 ((2 : Int), ⟨[30], [3], [], 3, 2, -1⟩)] ∧
      iterKeys [((1 : Int), ⟨[10, 20], [1, 2], [0], 3, 2, 2⟩),
                ((2 : Int), ⟨[30], [3], [], 3, 2, -1⟩)] 0
        = chainLiveKeys [((1 : Int), ⟨[10, 20], [1, 2], [0], 3, 2, 2⟩),
                         ((2 : Int), ⟨[30], [3], [], 3, 2, -1⟩)] ∧
      (iterKeys [((1 : Int), ⟨[10, 20], [1, 2], [0], 3, 2, 2⟩),
                 ((2 : Int), ⟨[30], [3], [], 3, 2, -1⟩)] 0).Pairwise (· < ·) := by
  have hlink : chainLinked [((1 : Int), ⟨[10, 20], [1, 2], [0], 3, 2, 2⟩),
      ((2 : Int), ⟨[30], [3], [], 3, 2, -1⟩)] := by
    simp only [chainLinked]
    refine ⟨by decide, by decide, by decide, by decide⟩
  have h := c4_iterator_traversal
    [((1 : Int), ⟨[10, 20], [1, 2], [0], 3, 2, 2⟩),
     ((2 : Int), ⟨[30], [3], [], 3, 2, -1⟩)] hlink
    (by simp [allChainKeys])
  exact ⟨hlink, h.2.1, h.1⟩
